import Mathlib

/-!
FindMyFont — verification of the core algorithms.

Shallow embedding of `src/FindMyFont.py`.  The program keeps a fixed-size
ascending scoreboard of the best (lowest) difference percentages
(`addScore`, the module-level `ranking`), and scores a pair of fonts by
averaging, over a set of characters, the area-based Jaccard distance
`(area(union) - area(intersection)) / area(union)` of the two glyph
polygons after a bounding-box scale normalization (`getPolyFactor`,
`shapely.affinity.scale`, `match`).

Numbers are modelled as `ℚ`.  Python's `/` raises `ZeroDivisionError` on a
zero denominator, so fallible code is embedded in `Except`.
-/

namespace FindMyFont

/-- A scoreboard entry: (difference score, candidate label/URL). -/
abbrev Entry := ℚ × String

/-- The module-level scoreboard, line 68 of the source:
`ranking=[[100,""],[100,""],[100,""],[100,""],[100,""]]` —
K = 5 sentinel entries at the worst difference 100 with an empty label. -/
def ranking : List Entry :=
  [(100, ""), (100, ""), (100, ""), (100, ""), (100, "")]

/-- Model of `addScore(array, score, url)`, lines 75–92 of the source.
The Python body scans for the first index `i` with `score <= array[i][0]`;
if found it sets `j = len-1`, shifts `array[i..len-2]` one slot toward the
tail (the `while j > i` loop) and overwrites position `i` with
`(score, url)`; if no index qualifies, the final guard
`score <= array[i][0]` (with `i = len-1`) fails and nothing is mutated.
The recursion below implements exactly that: insert before the first entry
whose stored score is ≥ the new score and drop the last element of the
remaining tail; otherwise leave the list unchanged.
(On an empty array the Python code would raise `IndexError`; the model
returns it unchanged, and theorems about scoreboards assume nonemptiness.) -/
def addScore : List Entry → ℚ → String → List Entry
  | [], _, _ => []
  | e :: rest, score, url =>
    if score ≤ e.1 then (score, url) :: (e :: rest).dropLast
    else e :: addScore rest score url

/-- Index of the first entry whose stored score is ≥ the new score —
the scan loop of `addScore` (lines 79–83). -/
def scanIdx (score : ℚ) : List Entry → Option Nat
  | [] => none
  | e :: rest => if score ≤ e.1 then some 0 else (scanIdx score rest).map (· + 1)

/-- The spec's description of `insert(score, label)` (§4.4, steps 1–3):
find the first position whose score is ≥ the new one, shift positions
`i .. K-2` one slot toward the tail, write the new pair at `i`; if there
is no such position, do nothing. -/
def scanInsert (a : List Entry) (score : ℚ) (url : String) : List Entry :=
  match scanIdx score a with
  | none => a
  | some i => a.take i ++ (score, url) :: (a.drop i).dropLast

/-- Fold a stream of (score, label) insertions into a scoreboard. -/
def insertAll (a : List Entry) (ops : List Entry) : List Entry :=
  ops.foldl (fun b p => addScore b p.1 p.2) a

/-- The scoreboard invariant: scores ascending,
`entries[0] ≤ entries[1] ≤ … ≤ entries[K-1]`. -/
def scoreSorted (a : List Entry) : Prop :=
  a.Pairwise (fun p q => p.1 ≤ q.1)

instance scoreSorted_decidable (a : List Entry) : Decidable (scoreSorted a) :=
  List.instDecidablePairwise a

/-- Every element of `addScore a s u` is the new pair or an old element. -/
lemma addScore_mem {a : List Entry} {s : ℚ} {u : String} {q : Entry}
    (hq : q ∈ addScore a s u) : q = (s, u) ∨ q ∈ a := by
  induction a with
  | nil => simp [addScore] at hq
  | cons e rest ih =>
    by_cases hle : s ≤ e.1
    · rw [addScore, if_pos hle] at hq
      rcases List.mem_cons.mp hq with h | h
      · exact Or.inl h
      · exact Or.inr ((e :: rest).dropLast_sublist.mem h)
    · rw [addScore, if_neg hle] at hq
      rcases List.mem_cons.mp hq with h | h
      · exact Or.inr (h ▸ List.mem_cons_self e rest)
      · rcases ih h with h' | h'
        · exact Or.inl h'
        · exact Or.inr (List.mem_cons_of_mem e h')

/-- One insertion preserves the ascending-order invariant. -/
lemma addScore_sorted {a : List Entry} (s : ℚ) (u : String)
    (h : scoreSorted a) : scoreSorted (addScore a s u) := by
  induction a with
  | nil => exact h
  | cons e rest ih =>
    rcases List.pairwise_cons.mp h with ⟨hhead, htail⟩
    by_cases hle : s ≤ e.1
    · rw [addScore, if_pos hle]
      refine List.pairwise_cons.mpr ⟨?_, ?_⟩
      · intro q hq
        rcases List.mem_cons.mp ((e :: rest).dropLast_sublist.mem hq) with h' | h'
        · exact h' ▸ hle
        · exact le_trans hle (hhead q h')
      · exact List.Pairwise.sublist (e :: rest).dropLast_sublist h
    · rw [addScore, if_neg hle]
      refine List.pairwise_cons.mpr ⟨?_, ih htail⟩
      intro q hq
      rcases addScore_mem hq with h' | h'
      · exact h' ▸ le_of_lt (lt_of_not_le hle)
      · exact hhead q h'

/-- One insertion preserves the length of the scoreboard. -/
lemma addScore_length (a : List Entry) (s : ℚ) (u : String) :
    (addScore a s u).length = a.length := by
  induction a with
  | nil => rfl
  | cons e rest ih =>
    by_cases hle : s ≤ e.1
    · rw [addScore, if_pos hle]
      simp
    · rw [addScore, if_neg hle]
      simp [ih]

/-- The insertion agrees with the spec's scan/shift/write description. -/
lemma addScore_eq_scanInsert (a : List Entry) (s : ℚ) (u : String) :
    addScore a s u = scanInsert a s u := by
  induction a with
  | nil => rfl
  | cons e rest ih =>
    by_cases hle : s ≤ e.1
    · rw [addScore, if_pos hle]
      simp [scanInsert, scanIdx, if_pos hle]
    · rw [addScore, if_neg hle, ih]
      unfold scanInsert
      rw [scanIdx, if_neg hle]
      cases hscan : scanIdx s rest with
      | none => simp [hscan]
      | some i =>
        simp only [hscan, Option.map_some']
        have hne : rest ≠ [] := by
          intro hnil
          rw [hnil] at hscan
          simp [scanIdx] at hscan
        simp [List.take_cons, List.drop_succ_cons,
          List.dropLast_cons_of_ne_nil hne]

/-!
Geometry: regions, normalization and the similarity scorer.

A shapely `Polygon` is modelled by its boundary vertex ring (`ttfont2poly`
already collapses holes, lines 94–121).  The polygon-boolean operations
`union`/`intersection` are the external geometry library's capability
(spec §9) and are taken as parameters; `bounds`, `affinity.scale` and
`.area` are modelled concretely.
-/

/-- A polygon region: its boundary vertex ring in the plane. -/
abbrev Region := List (ℚ × ℚ)

/-- shapely's `poly.bounds` 4-tuple `(minx, miny, maxx, maxy)`. -/
structure Bounds where
  minx : ℚ
  miny : ℚ
  maxx : ℚ
  maxy : ℚ
deriving DecidableEq

/-- Errors raised while scoring one candidate (`match`, lines 143–173).
`indexError` models the Python `IndexError` from `poly.bounds[2]` on an
empty polygon's empty bounds tuple (line 127); `zeroDivision` models the
Python `ZeroDivisionError` from `x1/x2` or `y1/y2` with a zero extent
(line 162), from `/union.area` with `union.area == 0` (line 170) and from
`total/count` with `count == 0` (line 173).  `degenerateRegion` —
Modelled from the spec: the typed error `DegenerateRegion` of the spec's
error taxonomy (§4.2, §7); no code under `src/` defines or raises it. -/
inductive MatchErr where
  | indexError
  | zeroDivision
  | degenerateRegion
deriving DecidableEq

/-- shapely's `poly.bounds`: the bounding box of the vertices, `none` for
an empty polygon (shapely returns an empty tuple and the subsequent
`bounds[2]` in `getPolyFactor` raises `IndexError`). -/
def polyBounds : Region → Option Bounds
  | [] => none
  | v :: vs =>
    some (vs.foldl
      (fun b w => ⟨min b.minx w.1, min b.miny w.2, max b.maxx w.1, max b.maxy w.2⟩)
      ⟨v.1, v.2, v.1, v.2⟩)

/-- Model of `getPolyFactor(poly)`, lines 126–130:
`(bounds[2] - bounds[0], bounds[3] - bounds[1])`, the x and y lengths of
the bounding box enclosing the polygon. -/
def getPolyFactor (p : Region) : Option (ℚ × ℚ) :=
  (polyBounds p).map fun b => (b.maxx - b.minx, b.maxy - b.miny)

/-- Model of `shapely.affinity.scale(poly, xfact, yfact, origin)`: each vertex
`(x, y)` is mapped to `(ox + (x - ox)·xfact, oy + (y - oy)·yfact)`. -/
def scaleAff (xfact yfact : ℚ) (origin : ℚ × ℚ) (p : Region) : Region :=
  p.map fun v => (origin.1 + (v.1 - origin.1) * xfact, origin.2 + (v.2 - origin.2) * yfact)

/-- Signed shoelace sum of a vertex ring: the running edge terms
`x_i·y_{i+1} - x_{i+1}·y_i`, closing the ring back to `first`. -/
def shoelaceSum (first : ℚ × ℚ) : List (ℚ × ℚ) → ℚ
  | [] => 0
  | [v] => v.1 * first.2 - first.1 * v.2
  | v :: w :: rest => (v.1 * w.2 - w.1 * v.2) + shoelaceSum first (w :: rest)

/-- shapely's `poly.area`: the absolute shoelace area of the boundary
ring; the empty polygon has area 0. -/
def polyArea : Region → ℚ
  | [] => 0
  | v :: vs => |shoelaceSum v (v :: vs)| / 2

/-- Lines 160–162 of `match`: compute both `getPolyFactor`s and rescale
the second polygon onto the first,
`affinity.scale(poly2, xfact=(x1/x2), yfact=(y1/y2), origin=(0,0))`.
A zero extent of the second polygon makes `x1/x2` or `y1/y2` raise
`ZeroDivisionError` (Python evaluates `xfact` first). -/
def normalize2 (p1 p2 : Region) : Except MatchErr Region :=
  match getPolyFactor p1 with
  | none => .error .indexError
  | some (x1, y1) =>
    match getPolyFactor p2 with
    | none => .error .indexError
    | some (x2, y2) =>
      if x2 = 0 then .error .zeroDivision
      else if y2 = 0 then .error .zeroDivision
      else .ok (scaleAff (x1 / x2) (y1 / y2) (0, 0) p2)

/-- One iteration of the `match` loop for a single character
(lines 159–170): normalize, then
`(union.area - intersection.area)/union.area`, where `/` raises
`ZeroDivisionError` when `union.area == 0`.  `uni` and `inter` are the
geometry library's polygon union and intersection. -/
def charDiff (uni inter : Region → Region → Region) (p1 p2 : Region) :
    Except MatchErr ℚ :=
  match normalize2 p1 p2 with
  | .error e => .error e
  | .ok sp2 =>
    let iA := polyArea (inter p1 sp2)
    let uA := polyArea (uni p1 sp2)
    if uA = 0 then .error .zeroDivision
    else .ok ((uA - iA) / uA)

/-- The loop of `match` (lines 153–173) carrying the accumulators
`total` and `count`; at the end `total/count` raises `ZeroDivisionError`
when `count == 0`.  `polys c` stands for the pair
`(ttfont2poly(font1, c), ttfont2poly(font2, c))`. -/
def matchTotal (uni inter : Region → Region → Region)
    (polys : Char → Region × Region) :
    List Char → ℚ → ℕ → Except MatchErr ℚ
  | [], total, count =>
    if count = 0 then .error .zeroDivision else .ok (total / (count : ℚ))
  | c :: rest, total, count =>
    match charDiff uni inter (polys c).1 (polys c).2 with
    | .error e => .error e
    | .ok d => matchTotal uni inter polys rest (total + d) (count + 1)

/-- Model of `match(check_chars, location1, location2)`, lines 143–173 (named
`matchModel` because `match` is a Lean keyword). -/
def matchModel (uni inter : Region → Region → Region)
    (polys : Char → Region × Region) (chars : List Char) : Except MatchErr ℚ :=
  matchTotal uni inter polys chars 0 0

/-- The per-candidate score inserted into the scoreboard by `main`
(lines 227–228): `score = match(...)`, then `score*100` is what is
ranked. -/
def candidateScore (uni inter : Region → Region → Region)
    (polys : Char → Region × Region) (chars : List Char) : Except MatchErr ℚ :=
  (matchModel uni inter polys chars).map (· * 100)

/-- A unit square region. -/
def unitSq : Region := [(0, 0), (1, 0), (1, 1), (0, 1)]

/-- A degenerate region with nonzero bounding-box extents but zero area:
three collinear vertices on the main diagonal. -/
def segA : Region := [(0, 0), (1, 1), (2, 2)]

/-- C1: `addScore` scans the entries in ascending-index order for the first
position whose stored score is ≥ the new score (ties inserted before the
equal entry), shifts positions `i .. K-2` one slot toward the tail and
writes `(score, label)` at `i`; and from the K = 5 sentinel-initialized
scoreboard, inserting (10,"a"), (50,"b"), (5,"c"), (90,"d"), (3,"e"),
(4,"f") in that order yields
[(3,"e"), (4,"f"), (5,"c"), (10,"a"), (50,"b")]. -/
theorem addScore_scan_shift_write_and_scenario :
    (∀ (a : List Entry) (s : ℚ) (u : String), addScore a s u = scanInsert a s u) ∧
    insertAll ranking [(10, "a"), (50, "b"), (5, "c"), (90, "d"), (3, "e"), (4, "f")]
      = [(3, "e"), (4, "f"), (5, "c"), (10, "a"), (50, "b")] :=
  ⟨addScore_eq_scanInsert, by decide⟩

/-- Any sequence of insertions preserves the ascending-order invariant. -/
lemma insertAll_sorted_aux (a : List Entry) (ops : List Entry)
    (h : scoreSorted a) : scoreSorted (insertAll a ops) := by
  induction ops generalizing a with
  | nil => exact h
  | cons p rest ih => exact ih (addScore a p.1 p.2) (addScore_sorted p.1 p.2 h)

/-- C2: starting from any nonempty scoreboard sorted ascending by score,
any sequence of insertions leaves the scoreboard sorted ascending by
score. -/
theorem insertAll_sorted (a : List Entry) (ops : List Entry)
    (_hne : a ≠ []) (h : scoreSorted a) : scoreSorted (insertAll a ops) :=
  insertAll_sorted_aux a ops h

/-- Witness for C2 at a concrete input. -/
theorem insertAll_sorted_witness :
    scoreSorted (insertAll ranking [(10, "a"), (50, "b"), (5, "c")]) :=
  insertAll_sorted ranking [(10, "a"), (50, "b"), (5, "c")]
    (by decide) (by decide)

/-- C3: the scoreboard size is invariant under insertion — a single
`addScore` never grows or shrinks a nonempty scoreboard, and any stream of
insertions into the program's K = 5 scoreboard `ranking` leaves exactly 5
entries. -/
theorem scoreboard_size_invariant :
    (∀ (a : List Entry) (s : ℚ) (u : String), a ≠ [] →
      (addScore a s u).length = a.length) ∧
    (∀ ops : List Entry, (insertAll ranking ops).length = 5) := by
  constructor
  · intro a s u _
    exact addScore_length a s u
  · intro ops
    have h5 : ∀ a : List Entry, a.length = 5 → ∀ ops : List Entry,
        (insertAll a ops).length = 5 := by
      intro a ha ops
      induction ops generalizing a with
      | nil => exact ha
      | cons p rest ih =>
        exact ih (addScore a p.1 p.2) ((addScore_length a p.1 p.2).trans ha)
    exact h5 ranking rfl ops

/-- A score strictly above every stored score is discarded unchanged. -/
lemma addScore_worse_aux (a : List Entry) (s : ℚ) (u : String)
    (hgt : ∀ e ∈ a, e.1 < s) : addScore a s u = a := by
  induction a with
  | nil => rfl
  | cons e rest ih =>
    have hlt : e.1 < s := hgt e (List.mem_cons_self e rest)
    rw [addScore, if_neg (not_le.mpr hlt)]
    rw [ih (fun q hq => hgt q (List.mem_cons_of_mem e hq))]

/-- C4: inserting a score strictly greater (worse) than every stored score
into a nonempty scoreboard performs no mutation: the scoreboard, scores
and labels alike, is returned exactly as it was. -/
theorem addScore_worse_no_mutation (a : List Entry) (s : ℚ) (u : String)
    (_hne : a ≠ []) (hgt : ∀ e ∈ a, e.1 < s) : addScore a s u = a :=
  addScore_worse_aux a s u hgt

/-- Witness for C3 at a concrete input. -/
theorem scoreboard_size_invariant_witness :
    (addScore ranking 7 "q").length = ranking.length :=
  scoreboard_size_invariant.1 ranking 7 "q" (by decide)

/-- Witness for C4 at a concrete input. -/
theorem addScore_worse_no_mutation_witness :
    addScore ranking 150 "z" = ranking :=
  addScore_worse_no_mutation ranking 150 "z" (by decide) (by decide)

/-- A 2×2 square region, the unit square scaled by two. -/
def sq2 : Region := [(0, 0), (2, 0), (2, 2), (0, 2)]

/-- A degenerate region of width 0 (a vertical line of vertices). -/
def vline : Region := [(0, 0), (0, 1), (0, 2)]

/-- A degenerate region of height 0 (a horizontal line of vertices). -/
def hline : Region := [(0, 0), (1, 0), (2, 0)]

/-- A second zero-area collinear region, distinct from `segA`. -/
def segB : Region := [(0, 0), (2, 2), (4, 4)]

/-- Scaling by factor 1 on both axes about the origin is the identity. -/
lemma scaleAff_one (p : Region) : scaleAff 1 1 (0, 0) p = p := by
  simp [scaleAff]

/-- C10: on the empty character set, `match` raises `ZeroDivisionError`
at the final `total/count` (the counter stays 0), so no aggregate score
is returned — the aggregate is defined only for nonempty `check_chars`. -/
theorem match_empty_chars (uni inter : Region → Region → Region)
    (polys : Char → Region × Region) :
    matchModel uni inter polys [] = .error .zeroDivision := rfl

/-- Counterexample to C5: on two empty regions the code raises
`IndexError` at `poly.bounds[2]` before any area is computed, and on two
zero-area regions with nonzero bounding boxes (where `area(union) == 0`
is actually reached) it raises `ZeroDivisionError` at
`(union.area - intersection.area)/union.area`; in neither case is the
score 0 returned. -/
theorem match_zero_union_cex :
    (matchModel (fun p _ => p) (fun p _ => p) (fun _ => ([], [])) ['A']
      = .error .indexError) ∧
    (matchModel (fun p _ => p) (fun p _ => p) (fun _ => (segA, segA)) ['A']
      = .error .zeroDivision) ∧
    (matchModel (fun p _ => p) (fun p _ => p) (fun _ => (segA, segA)) ['A']
      ≠ .ok 0) := by
  refine ⟨rfl, ?_, ?_⟩
  · norm_num [matchModel, matchTotal, charDiff, normalize2, getPolyFactor,
      polyBounds, segA, min_def, max_def, scaleAff, polyArea, shoelaceSum]
  · norm_num [matchModel, matchTotal, charDiff, normalize2, getPolyFactor,
      polyBounds, segA, min_def, max_def, scaleAff, polyArea, shoelaceSum]
    exact fun h => nomatch h

/-- C5 (amended): when the per-character normalization succeeds but the
union has area 0, the computation raises `ZeroDivisionError` — the code
has no special case returning 0. -/
theorem match_zero_union_raises (uni inter : Region → Region → Region)
    (polys : Char → Region × Region) (c : Char) (sp2 : Region)
    (h1 : normalize2 (polys c).1 (polys c).2 = .ok sp2)
    (h2 : polyArea (uni (polys c).1 sp2) = 0) :
    matchModel uni inter polys [c] = .error .zeroDivision := by
  unfold matchModel matchTotal charDiff
  rw [h1]
  simp [h2]

/-- Witness for C5's amended theorem at a concrete input. -/
theorem match_zero_union_raises_witness :
    matchModel (fun p _ => p) (fun p _ => p) (fun _ => (segA, segA)) ['B']
      = .error .zeroDivision :=
  match_zero_union_raises (fun p _ => p) (fun p _ => p) (fun _ => (segA, segA))
    'B' segA
    (by norm_num [normalize2, getPolyFactor, polyBounds, segA, min_def,
      max_def, scaleAff])
    (by norm_num [polyArea, shoelaceSum, segA])

/-- C6: for regions with nonzero candidate extents, the normalizer
computes `sx = width(R1)/width(R2)` and `sy = height(R1)/height(R2)` from
the bounding boxes and applies the origin-anchored transform
`(x, y) ↦ (x·sx, y·sy)` to R2 — no translation and no centering. -/
theorem normalize2_scale_formula (p1 p2 : Region) (b1 b2 : Bounds)
    (h1 : polyBounds p1 = some b1) (h2 : polyBounds p2 = some b2)
    (hx : b2.maxx - b2.minx ≠ 0) (hy : b2.maxy - b2.miny ≠ 0) :
    normalize2 p1 p2 = .ok (p2.map fun v =>
      (v.1 * ((b1.maxx - b1.minx) / (b2.maxx - b2.minx)),
       v.2 * ((b1.maxy - b1.miny) / (b2.maxy - b2.miny)))) := by
  unfold normalize2 getPolyFactor
  rw [h1, h2]
  simp only [Option.map_some']
  rw [if_neg hx, if_neg hy]
  simp [scaleAff]

/-- Witness for C6 at a concrete input: the 2×2 square is rescaled onto
the unit square, each vertex multiplied by (1/2, 1/2). -/
theorem normalize2_scale_formula_witness :
    normalize2 unitSq sq2 = .ok unitSq := by
  have h := normalize2_scale_formula unitSq sq2 ⟨0, 0, 1, 1⟩ ⟨0, 0, 2, 2⟩
    (by norm_num [polyBounds, unitSq, min_def, max_def])
    (by norm_num [polyBounds, sq2, min_def, max_def])
    (by norm_num) (by norm_num)
  rw [h]
  norm_num [sq2, unitSq]

/-- Counterexample to C7: on a candidate region of bounding-box width 0
the code raises the untyped arithmetic `ZeroDivisionError` at
`x1/x2` — not any typed `DegenerateRegion` error. -/
theorem degenerate_typed_error_cex :
    (matchModel (fun p _ => p) (fun p _ => p) (fun _ => (unitSq, vline)) ['A']
      = .error .zeroDivision) ∧
    ((Except.error .zeroDivision : Except MatchErr ℚ)
      ≠ .error .degenerateRegion) := by
  constructor
  · norm_num [matchModel, matchTotal, charDiff, normalize2, getPolyFactor,
      polyBounds, unitSq, vline, min_def, max_def]
  · intro h
    simp at h

/-- C7 (amended): for a candidate region whose bounding-box width or
height is 0, the scale-factor computation fails — it raises
`ZeroDivisionError` at `x1/x2` (or `y1/y2`) and no score is produced;
the error is the untyped arithmetic one, not a typed `DegenerateRegion`. -/
theorem degenerate_extent_raises (uni inter : Region → Region → Region)
    (polys : Char → Region × Region) (c : Char) (b1 b2 : Bounds)
    (h1 : polyBounds (polys c).1 = some b1)
    (h2 : polyBounds (polys c).2 = some b2)
    (hdeg : b2.maxx - b2.minx = 0 ∨ b2.maxy - b2.miny = 0) :
    matchModel uni inter polys [c] = .error .zeroDivision := by
  unfold matchModel matchTotal charDiff normalize2 getPolyFactor
  rw [h1, h2]
  simp only [Option.map_some']
  by_cases hx : b2.maxx - b2.minx = 0
  · simp [hx]
  · rcases hdeg with h | h
    · exact absurd h hx
    · simp [hx, h]

/-- Witness for C7's amended theorem at a concrete input. -/
theorem degenerate_extent_raises_witness :
    matchModel (fun p _ => p) (fun p _ => p) (fun _ => (unitSq, hline)) ['B']
      = .error .zeroDivision :=
  degenerate_extent_raises (fun p _ => p) (fun p _ => p)
    (fun _ => (unitSq, hline)) 'B' ⟨0, 0, 1, 1⟩ ⟨0, 0, 2, 0⟩
    (by norm_num [polyBounds, unitSq, min_def, max_def])
    (by norm_num [polyBounds, hline, min_def, max_def])
    (Or.inr (by norm_num))

/-- Counterexample to C9: a zero-area region with nonzero bounding-box
extents (collinear vertices) compared against itself raises
`ZeroDivisionError` (the union has area 0) instead of scoring 0. -/
theorem self_match_cex :
    (charDiff (fun p _ => p) (fun p _ => p) segB segB = .error .zeroDivision) ∧
    (charDiff (fun p _ => p) (fun p _ => p) segB segB ≠ .ok 0) := by
  constructor
  · norm_num [charDiff, normalize2, getPolyFactor, polyBounds, segB,
      min_def, max_def, scaleAff, polyArea, shoelaceSum]
  · norm_num [charDiff, normalize2, getPolyFactor, polyBounds, segB,
      min_def, max_def, scaleAff, polyArea, shoelaceSum]
    exact fun h => nomatch h

/-- C9 (amended): comparing a region `R` against itself, with the
identity scale factor arising from its own (nonzero) bounding-box
extents, yields the per-character score
`(area(union) - area(intersection))/area(union) = 0`, provided the
geometry library's union and intersection are idempotent at `R` and
`R`'s area is nonzero (a zero union area raises `ZeroDivisionError`
instead). -/
theorem self_match_score_zero (uni inter : Region → Region → Region)
    (R : Region) (b : Bounds) (hb : polyBounds R = some b)
    (hx : b.maxx - b.minx ≠ 0) (hy : b.maxy - b.miny ≠ 0)
    (hu : uni R R = R) (hi : inter R R = R) (ha : polyArea R ≠ 0) :
    charDiff uni inter R R = .ok 0 := by
  have hnorm : normalize2 R R = .ok R := by
    unfold normalize2 getPolyFactor
    rw [hb]
    simp only [Option.map_some']
    rw [if_neg hx, if_neg hy, div_self hx, div_self hy, scaleAff_one]
  unfold charDiff
  rw [hnorm]
  simp [hu, hi, ha]

/-- Witness for C9's amended theorem at a concrete input. -/
theorem self_match_score_zero_witness :
    charDiff (fun p _ => p) (fun p _ => p) unitSq unitSq = .ok 0 :=
  self_match_score_zero (fun p _ => p) (fun p _ => p) unitSq ⟨0, 0, 1, 1⟩
    (by norm_num [polyBounds, unitSq, min_def, max_def])
    (by norm_num) (by norm_num) rfl rfl
    (by norm_num [polyArea, shoelaceSum, unitSq])

/-- When every character scores, the `match` loop accumulates exactly the
sum of the per-character scores and the count of characters. -/
lemma matchTotal_ok (uni inter : Region → Region → Region)
    (polys : Char → Region × Region) (f : Char → ℚ) :
    ∀ (chars : List Char) (t : ℚ) (n : ℕ),
      (∀ c ∈ chars, charDiff uni inter (polys c).1 (polys c).2 = .ok (f c)) →
      0 < n + chars.length →
      matchTotal uni inter polys chars t n
        = .ok ((t + (chars.map f).sum) / ((n + chars.length : ℕ) : ℚ)) := by
  intro chars
  induction chars with
  | nil =>
    intro t n _ hpos
    rw [matchTotal, if_neg (Nat.pos_iff_ne_zero.mp (by simpa using hpos))]
    simp
  | cons c rest ih =>
    intro t n hok hpos
    rw [matchTotal, hok c (List.mem_cons_self c rest)]
    dsimp only
    rw [ih (t + f c) (n + 1) (fun q hq => hok q (List.mem_cons_of_mem c hq))
      (by positivity)]
    congr 1
    rw [List.map_cons, List.sum_cons, List.length_cons]
    push_cast
    ring

/-- If the `match` loop returns a value, every requested character
produced a per-character score (an exception aborts the whole loop). -/
lemma matchTotal_ok_mem (uni inter : Region → Region → Region)
    (polys : Char → Region × Region) :
    ∀ (chars : List Char) (t : ℚ) (n : ℕ) (v : ℚ),
      matchTotal uni inter polys chars t n = .ok v →
      ∀ c ∈ chars, ∃ d, charDiff uni inter (polys c).1 (polys c).2 = .ok d := by
  intro chars
  induction chars with
  | nil =>
    intro t n v _ c hc
    exact absurd hc (List.not_mem_nil c)
  | cons c rest ih =>
    intro t n v hv q hq
    rw [matchTotal] at hv
    cases hd : charDiff uni inter (polys c).1 (polys c).2 with
    | error e => rw [hd] at hv; exact nomatch hv
    | ok d =>
      rw [hd] at hv
      rcases List.mem_cons.mp hq with h | h
      · exact ⟨d, h ▸ hd⟩
      · exact ih (t + d) (n + 1) v hv q h

/-- Mapped sums of values that are ≥ 0 are ≥ 0. -/
lemma mapSum_nonneg (f : Char → ℚ) :
    ∀ chars : List Char, (∀ c ∈ chars, 0 ≤ f c) → 0 ≤ (chars.map f).sum := by
  intro chars
  induction chars with
  | nil => intro _; simp
  | cons c rest ih =>
    intro h
    simp only [List.map_cons, List.sum_cons]
    have h1 := h c (List.mem_cons_self c rest)
    have h2 := ih (fun q hq => h q (List.mem_cons_of_mem c hq))
    linarith

/-- Mapped sums of values that are ≤ 1 are at most the length. -/
lemma mapSum_le_length (f : Char → ℚ) :
    ∀ chars : List Char, (∀ c ∈ chars, f c ≤ 1) →
      (chars.map f).sum ≤ (chars.length : ℚ) := by
  intro chars
  induction chars with
  | nil => intro _; simp
  | cons c rest ih =>
    intro h
    simp only [List.map_cons, List.sum_cons, List.length_cons]
    have h1 := h c (List.mem_cons_self c rest)
    have h2 := ih (fun q hq => h q (List.mem_cons_of_mem c hq))
    push_cast
    linarith

/-- C8: when every character of a nonempty `check_chars` produces a
per-character score, the candidate's score (what `main` feeds into the
scoreboard as `score*100`) is the arithmetic mean of the per-character
scores multiplied by 100 — a percentage in [0, 100] whenever the
per-character scores lie in [0, 1] (as the library's
`0 ≤ area(intersection) ≤ area(union)` guarantees); and if the loop
returns at all, every requested character scored — a failing character
aborts the whole comparison rather than averaging a partial subset. -/
theorem candidateScore_mean_percentage :
    (∀ (uni inter : Region → Region → Region) (polys : Char → Region × Region)
        (chars : List Char) (f : Char → ℚ),
      chars ≠ [] →
      (∀ c ∈ chars, charDiff uni inter (polys c).1 (polys c).2 = .ok (f c)) →
      candidateScore uni inter polys chars
        = .ok ((chars.map f).sum / (chars.length : ℚ) * 100) ∧
      ((∀ c ∈ chars, 0 ≤ f c ∧ f c ≤ 1) →
        0 ≤ (chars.map f).sum / (chars.length : ℚ) * 100 ∧
        (chars.map f).sum / (chars.length : ℚ) * 100 ≤ 100)) ∧
    (∀ (uni inter : Region → Region → Region) (polys : Char → Region × Region)
        (chars : List Char) (v : ℚ),
      matchModel uni inter polys chars = .ok v →
      ∀ c ∈ chars, ∃ d, charDiff uni inter (polys c).1 (polys c).2 = .ok d) := by
  constructor
  · intro uni inter polys chars f hne hok
    have hlen : 0 < chars.length := List.length_pos.mpr hne
    have hmean : matchModel uni inter polys chars
        = .ok ((chars.map f).sum / (chars.length : ℚ)) := by
      rw [matchModel, matchTotal_ok uni inter polys f chars 0 0 hok (by simpa using hlen)]
      simp
    constructor
    · rw [candidateScore, hmean]
      rfl
    · intro hbd
      have hq : (0 : ℚ) < (chars.length : ℚ) := by exact_mod_cast hlen
      have hs0 : 0 ≤ (chars.map f).sum :=
        mapSum_nonneg f chars (fun c hc => (hbd c hc).1)
      have hs1 : (chars.map f).sum ≤ (chars.length : ℚ) :=
        mapSum_le_length f chars (fun c hc => (hbd c hc).2)
      have hd1 : (chars.map f).sum / (chars.length : ℚ) ≤ 1 :=
        (div_le_one hq).mpr hs1
      constructor
      · positivity
      · calc (chars.map f).sum / (chars.length : ℚ) * 100
            ≤ 1 * 100 := by nlinarith
          _ = 100 := by norm_num
  · intro uni inter polys chars v hv
    exact matchTotal_ok_mem uni inter polys chars 0 0 v hv

/-- Witness for C8 at a concrete input: the unit square against itself
with a disjoint (empty) intersection scores 1 per character, hence a
candidate score of 100. -/
theorem candidateScore_mean_percentage_witness :
    candidateScore (fun p _ => p) (fun _ _ => ([] : Region))
      (fun _ => (unitSq, unitSq)) ['A'] = .ok 100 := by
  have h := (candidateScore_mean_percentage.1 (fun p _ => p)
    (fun _ _ => ([] : Region)) (fun _ => (unitSq, unitSq)) ['A'] (fun _ => 1)
    (by simp)
    (by
      intro c _
      norm_num [charDiff, normalize2, getPolyFactor, polyBounds, unitSq,
        min_def, max_def, scaleAff, polyArea, shoelaceSum])).1
  rw [h]
  norm_num

end FindMyFont
